import Mathlib

/-
Verification of the dicom2fem mesh pipeline (src/dicom2fem/seg2fem.py).

The embedding works over exact rationals (ℚ); numpy float arrays become
lists of lists of ℚ, integer index arrays become lists of lists of ℕ.
Fallible numpy operations (broadcast errors, KeyError on the meshio type
table) are modelled with Except String.  Division by zero, which numpy
turns into inf/nan with a warning, is the total ℚ division (q / 0 = 0);
the control flow (no exception raised) is the same.
-/

namespace Seg2Fem

/-! ## Basic vector operations on coordinate rows (numpy row arithmetic) -/

def addVec (a b : List ℚ) : List ℚ := List.zipWith (· + ·) a b

def subVec (a b : List ℚ) : List ℚ := List.zipWith (· - ·) a b

def smulVec (s : ℚ) (a : List ℚ) : List ℚ := a.map (fun x => s * x)

def getC (p : List ℚ) (k : ℕ) : ℚ := p.getD k 0

/-! ## Cell Splitter: seg2fem.elems_q2t -/

/-- The fixed decomposition table chosen by `elems_q2t` from the cell width:
hexahedron (more than 4 nodes) to 6 tetrahedra, else quad to 2 triangles. -/
def q2tTable (nnd : ℕ) : List (List ℕ) :=
  if nnd > 4 then
    [[0, 2, 3, 6],
     [0, 3, 7, 6],
     [0, 7, 4, 6],
     [0, 5, 6, 4],
     [1, 5, 6, 0],
     [1, 6, 2, 0]]
  else
    [[0, 1, 2],
     [0, 2, 3]]

/-- Width of the rows produced by `elems_q2t` (the decomposition table width). -/
def q2tWidth (nnd : ℕ) : ℕ := if nnd > 4 then 4 else 3

/-- seg2fem.elems_q2t.  `nnd` is `el.shape[1]` (the width of the input array,
which a list-of-lists does not carry).  The source builds `out` by the scatter
loop `out[ii + j*ns] = el[j][q2t[ii]]` for `ii < ns`, `j < nel`; each output
row index `r` is hit exactly once, with `ii = r % ns` and `j = r / ns`, so the
output row `r` holds `el[r / ns][q2t[r % ns]]`, which is how it is written here. -/
def elems_q2t (el : List (List ℕ)) (nnd : ℕ) : List (List ℕ) :=
  (List.range (el.length * (q2tTable nnd).length)).map fun r =>
    ((q2tTable nnd).getD (r % (q2tTable nnd).length) []).map fun c =>
      (el.getD (r / (q2tTable nnd).length) []).getD c 0

/-! ## Determinants and volumes (seg2fem.get_volume internals) -/

/-- Determinant of the augmented matrix [[x1,y1,1],[x2,y2,1],[x3,y3,1]]
(the 2D case of nm.linalg.det(mtx) in get_volume), expanded. -/
def detAug2 (p q r : List ℚ) : ℚ :=
  getC p 0 * getC q 1 - getC p 0 * getC r 1 - getC q 0 * getC p 1
    + getC q 0 * getC r 1 + getC r 0 * getC p 1 - getC r 0 * getC q 1

def det3x3 (a b c d e f g h i : ℚ) : ℚ :=
  a * (e * i - f * h) - b * (d * i - f * g) + c * (d * h - e * g)

/-- Determinant of the augmented matrix [[x1,y1,z1,1],...,[x4,y4,z4,1]]
(the 3D case of nm.linalg.det(mtx)): the 3x3 determinant of the rows
p − t, q − t, r − t. -/
def detAug3 (p q r t : List ℚ) : ℚ :=
  det3x3 (getC p 0 - getC t 0) (getC p 1 - getC t 1) (getC p 2 - getC t 2)
    (getC q 0 - getC t 0) (getC q 1 - getC t 1) (getC q 2 - getC t 2)
    (getC r 0 - getC t 0) (getC r 1 - getC t 1) (getC r 2 - getC t 2)

/-- Coordinate row of corner `k` of cell `c` (nd[el] row). -/
def ndRow (nd : List (List ℚ)) (c : List ℕ) (k : ℕ) : List ℚ := nd.getD (c.getD k 0) []

/-- Per-simplex signed areas `mul * det` for dim = 2 (mul = 1 / 2!). -/
def vols2 (el : List (List ℕ)) (nd : List (List ℚ)) : List ℚ :=
  el.map fun c => 1 / 2 * detAug2 (ndRow nd c 0) (ndRow nd c 1) (ndRow nd c 2)

def vol2 (el : List (List ℕ)) (nd : List (List ℚ)) : ℚ := (vols2 el nd).sum

/-- mtx.sum(1)[:, :-1] / nnd for one 2D cell: the corner-coordinate sum
divided by the input cell width `nnd`. -/
def centSum2 (nd : List (List ℚ)) (nnd : ℕ) (c : List ℕ) : List ℚ :=
  smulVec (1 / (nnd : ℚ)) (addVec (addVec (ndRow nd c 0) (ndRow nd c 1)) (ndRow nd c 2))

/-- bc = dot(vols, mtx.sum(1)[:, :-1] / nnd) / vol for dim = 2 (the division
by a zero volume is numpy inf/nan with a warning; in ℚ it is the junk 0). -/
def bc2 (nnd : ℕ) (el : List (List ℕ)) (nd : List (List ℚ)) : List ℚ :=
  smulVec (1 / vol2 el nd)
    ((List.zipWith (fun v c => smulVec v (centSum2 nd nnd c)) (vols2 el nd) el).foldl addVec
      (List.replicate 2 0))

/-- Per-simplex signed volumes for dim = 3 (mul = -(1 / 3!), the sign flip). -/
def vols3 (el : List (List ℕ)) (nd : List (List ℚ)) : List ℚ :=
  el.map fun c =>
    -(1 / 6) * detAug3 (ndRow nd c 0) (ndRow nd c 1) (ndRow nd c 2) (ndRow nd c 3)

def vol3 (el : List (List ℕ)) (nd : List (List ℚ)) : ℚ := (vols3 el nd).sum

def centSum3 (nd : List (List ℚ)) (nnd : ℕ) (c : List ℕ) : List ℚ :=
  smulVec (1 / (nnd : ℚ))
    (addVec (addVec (addVec (ndRow nd c 0) (ndRow nd c 1)) (ndRow nd c 2)) (ndRow nd c 3))

def bc3 (nnd : ℕ) (el : List (List ℕ)) (nd : List (List ℚ)) : List ℚ :=
  smulVec (1 / vol3 el nd)
    ((List.zipWith (fun v c => smulVec v (centSum3 nd nnd c)) (vols3 el nd) el).foldl addVec
      (List.replicate 3 0))

/-- get_volume after its (dead) splitting branch.  `nnd` is el.shape[1] before
that branch; it only enters the centroid division `/ nnd`.  numpy's assignment
`mtx[:, :, :-1] = nd[el, :]` raises a broadcast ValueError unless the cell
width equals dim + 1; nm.linalg.det is modelled for dim 2 and 3, the only mesh
dimensions that occur. -/
def get_volume_core (nnd : ℕ) (el : List (List ℕ)) (nd : List (List ℚ)) :
    Except String (ℚ × List ℚ) :=
  if (el.headD []).length = (nd.headD []).length + 1 then
    if (nd.headD []).length = 2 then .ok (vol2 el nd, bc2 nnd el nd)
    else if (nd.headD []).length = 3 then .ok (vol3 el nd, bc3 nnd el nd)
    else .error "det: dimension not modelled"
  else .error "could not broadcast input array"

/-- seg2fem.get_volume.  `etype = '%d_%d' % (dim, nnd)` is compared against
the meshio names 'quad' and 'hexahedron'; a digits-and-underscore string never
equals either, so the `elems_q2t` call is dead code. -/
def get_volume (el : List (List ℕ)) (nd : List (List ℚ)) : Except String (ℚ × List ℚ) :=
  if toString (nd.headD []).length ++ "_" ++ toString (el.headD []).length = "quad"
      ∨ toString (nd.headD []).length ++ "_" ++ toString (el.headD []).length = "hexahedron"
  then get_volume_core (el.headD []).length (elems_q2t el (el.headD []).length) nd
  else get_volume_core (el.headD []).length el nd

/-! ## Taubin smoothing iteration (seg2fem.smooth_mesh internals) -/

/-- Row `i` of weights * coors: the cost-weighted combination of coordinate
rows.  The row width is coors.shape[1]. -/
def dotRow (w : List ℚ) (coors : List (List ℚ)) (width : ℕ) : List ℚ :=
  (List.zipWith (fun wij row => smulVec wij row) w coors).foldl addVec
    (List.replicate width 0)

def matVecs (weights coors : List (List ℚ)) : List (List ℚ) :=
  weights.map fun w => dotRow w coors (coors.headD []).length

/-- displ = (weights - identity(n_nod)) * coors (seg2fem laplacian). -/
def laplacian (coors weights : List (List ℚ)) : List (List ℚ) :=
  List.zipWith subVec (matVecs weights coors) coors

/-- One iteration `coors += factor * displ` of seg2fem taubin. -/
def taubinStep (coors weights : List (List ℚ)) (factor : ℚ) : List (List ℚ) :=
  List.zipWith addVec coors ((laplacian coors weights).map (smulVec factor))

/-- seg2fem taubin: even iteration indices apply lam, odd ones mu.  The loop
starts from `coors0.copy()`; the input array is never written. -/
def taubin (coors0 weights : List (List ℚ)) (lam mu : ℚ) (n_iter : ℕ) : List (List ℚ) :=
  (List.range n_iter).foldl
    (fun coors ii => taubinStep coors weights (if ii % 2 = 0 then lam else mu)) coors0

/-! ## Default weight matrix (seg2fem.smooth_mesh, weights is None) -/

/-- meshio cell-type name to the internal '%d_%d' key (seg2fem my_types).
The source dict lookup raises KeyError on other names; they do not occur. -/
def myTypes (t : String) : String :=
  if t = "triangle" then "2_3"
  else if t = "quad" then "2_4"
  else if t = "tetra" then "3_4"
  else if t = "hexahedron" then "3_8"
  else ""

/-- Modelled from the spec: the per-cell edges underlying
`genfem_base.get_snodes_uedges` (whose source is not under src/): "unique
unordered node-pairs derived from cell connectivity", listed per cell kind. -/
def cellEdges (mytype : String) (c : List ℕ) : List (ℕ × ℕ) :=
  let v := fun k => c.getD k 0
  if mytype = "2_3" then [(v 0, v 1), (v 1, v 2), (v 2, v 0)]
  else if mytype = "2_4" then [(v 0, v 1), (v 1, v 2), (v 2, v 3), (v 3, v 0)]
  else if mytype = "3_4" then
    [(v 0, v 1), (v 1, v 2), (v 2, v 0), (v 0, v 3), (v 1, v 3), (v 2, v 3)]
  else if mytype = "3_8" then
    [(v 0, v 1), (v 1, v 2), (v 2, v 3), (v 3, v 0),
     (v 4, v 5), (v 5, v 6), (v 6, v 7), (v 7, v 4),
     (v 0, v 4), (v 1, v 5), (v 2, v 6), (v 3, v 7)]
  else []

/-- Unordered edge normal form (smaller endpoint first). -/
def normEdge (e : ℕ × ℕ) : ℕ × ℕ := if e.1 ≤ e.2 then e else (e.2, e.1)

/-- Modelled from the spec: the unique undirected mesh edges
(`edges` returned by get_snodes_uedges). -/
def uedges (mytype : String) (cells : List (List ℕ)) : List (ℕ × ℕ) :=
  ((cells.flatMap (cellEdges mytype)).map normEdge).dedup

/-- Modelled from the spec: `sndi`, the boundary nodes — "nodes lying on
unshared edges", the endpoints of the edges occurring in exactly one cell. -/
def sndi (mytype : String) (cells : List (List ℕ)) : List ℕ :=
  ((uedges mytype cells).filter fun e =>
      ((cells.flatMap (cellEdges mytype)).map normEdge).count e = 1).flatMap fun e => [e.1, e.2]

/-- Hierarchy tags: all nodes interior (2); with bconstr the boundary nodes
`sndi` are raised to 4. -/
def node_group (bconstr : Bool) (snd : List ℕ) (i : ℕ) : ℕ :=
  if bconstr ∧ i ∈ snd then 4 else 2

/-- Entry (i, j) of the cost coo-matrix: one unit for every edge that yields
a directed cost edge i → j.  rows1/cols1 of the source are the edges (i, j)
with g(end2) ≥ g(end1); rows2/cols2 the edges (j, i) with g(end1) ≥ g(end2);
coo_matrix sums duplicate entries. -/
def cost (g : ℕ → ℕ) (edges : List (ℕ × ℕ)) (i j : ℕ) : ℕ :=
  (edges.filter fun e =>
    (e.1 = i ∧ e.2 = j ∧ g e.1 ≤ g e.2) ∨ (e.2 = i ∧ e.1 = j ∧ g e.2 ≤ g e.1)).length

/-- costs.sum(1): the total outgoing cost of node i. -/
def costRowSum (g : ℕ → ℕ) (edges : List (ℕ × ℕ)) (n i : ℕ) : ℚ :=
  ((List.range n).map fun j => (cost g edges i j : ℚ)).sum

/-- The weight matrix built by seg2fem.smooth_mesh when none is supplied: the
sparse product diag(1 / costs.sum(1)) * costs, materialized densely.  A row
with zero outgoing cost has no stored entries in the sparse product (scipy
turns 1/0 into inf with a warning, but the product row stays empty); its
dense row is zero, as it is here where 1/0 = 0 in ℚ. -/
def buildWeights (n : ℕ) (mytype : String) (cells : List (List ℕ)) (bconstr : Bool) :
    List (List ℚ) :=
  (List.range n).map fun i =>
    (List.range n).map fun j =>
      1 / costRowSum (node_group bconstr (sndi mytype cells)) (uedges mytype cells) n i *
        (cost (node_group bconstr (sndi mytype cells)) (uedges mytype cells) i j : ℚ)

/-! ## The mesh record and smooth_mesh -/

/-- A meshio mesh with its single typed cell block (points, cells[0].type,
cells[0].data). -/
structure MeshS where
  points : List (List ℚ)
  cellType : String
  cellData : List (List ℕ)
  deriving DecidableEq

/-- seg2fem.smooth_mesh.  Errors of the volume pass (the numpy broadcast
failure) propagate; no other failure exists on this path — in particular the
divisions by a zero volume are numpy warnings, not exceptions. -/
def smooth_mesh (mesh : MeshS) (n_iter : ℕ) (lam mu : ℚ)
    (weights : Option (List (List ℚ))) (bconstr volume_corr : Bool) :
    Except String (List (List ℚ)) :=
  let W := match weights with
    | some w => w
    | none => buildWeights mesh.points.length (myTypes mesh.cellType) mesh.cellData bconstr
  let coors := taubin mesh.points W lam mu n_iter
  if volume_corr then
    match get_volume mesh.cellData mesh.points, get_volume mesh.cellData coors with
    | .ok (volume0, bc), .ok (volume, _) =>
        .ok (coors.map fun p => addVec (smulVec (volume0 / volume) (subVec p bc)) bc)
    | .error e, _ => .error e
    | .ok _, .error e => .error e
  else .ok coors

/-- The rescaling map of the volume-correction step:
coors = (coors - bc) * scale + bc, row by row. -/
def aff (s : ℚ) (bc p : List ℚ) : List ℚ := addVec (smulVec s (subVec p bc)) bc

/-- The volume-preservation property claimed by C1 at one call: the returned
coordinates exist and their total signed volume matches the pre-smoothing
volume with relative error below 1e-9. -/
def volume_preserved_check (cells : List (List ℕ)) (nd0 : List (List ℚ))
    (res : Except String (List (List ℚ))) : Bool :=
  match res with
  | .ok c => decide (|vol2 cells c - vol2 cells nd0| * 1000000000 < |vol2 cells nd0|)
  | .error _ => false

/-- One call of seg2fem.smooth_mesh paired with the mesh object it leaves
behind.  `taubin` starts from `coors0.copy()` (line 135) and its in-place
updates `coors += ...` hit that copy; no statement of smooth_mesh assigns to
mesh.points or mesh.cells, so the call leaves both fields exactly as found
and hands the smoothed coordinates back as a separate array. -/
def smooth_mesh_call (mesh : MeshS) (n_iter : ℕ) (lam mu : ℚ)
    (weights : Option (List (List ℚ))) (bconstr volume_corr : Bool) :
    MeshS × Except String (List (List ℚ)) :=
  (⟨mesh.points, mesh.cellType, mesh.cellData⟩,
    smooth_mesh mesh n_iter lam mu weights bconstr volume_corr)

/-! ## Vertex welding (seg2fem.gen_mesh_from_voxels_mc) -/

/-- Insertion into an ascending list (one step of ukey.sort()). -/
def insertSorted (x : ℕ) : List ℕ → List ℕ
  | [] => [x]
  | y :: t => if x ≤ y then x :: y :: t else y :: insertSorted x t

def sortAsc (l : List ℕ) : List ℕ := l.foldr insertSorted []

/-- The set `uniq` of gen_mesh_from_voxels_mc: for every flattened vertex the
sorted tuple of its in-range query hits (`ukey = ii[ii < tree.n]`, sorted),
collected into a set.  Python iterates a set in unspecified order;
first-occurrence order is used here. -/
def weldKeys (numv : ℕ) (rows : List (List ℕ)) : List (List ℕ) :=
  (rows.map fun r => sortAsc (r.filter fun x => x < numv)).dedup

/-- The loop `for ii, idxs in enumerate(uniq): ntri[idxs] = ii`, with `ii`
counting up from the given start. -/
def assignKeys (ii : ℕ) (keys : List (List ℕ)) (acc : List ℕ) : List ℕ :=
  match keys with
  | [] => acc
  | key :: t => assignKeys (ii + 1) t (key.foldl (fun a q => a.set q ii) acc)

/-- ntri after the enumeration loop, starting from nm.ones((nel * nnd,)). -/
def weld_ntri (numv : ℕ) (rows : List (List ℕ)) : List ℕ :=
  assignKeys 0 (weldKeys numv rows) (List.replicate numv 1)

/-- ntri.reshape((nel, nnd)). -/
def chunk (nel nnd : ℕ) (l : List ℕ) : List (List ℕ) :=
  match nel with
  | 0 => []
  | m + 1 => l.take nnd :: chunk m nnd (l.drop nnd)

/-- The vertex-welding stage of seg2fem.gen_mesh_from_voxels_mc.  The
marching-cubes triangle soup and the scipy cKDTree are external; `rows` is
the query result `idx`, one list of candidate indices per flattened vertex
(scipy pads missing neighbours with the sentinel `tree.n`, removed by
`ii[ii < tree.n]`).  Returns the remapped triangle block
`ntri.reshape((nel, nnd))`, the welded points `ncoors[ii] = coors[idxs[0]]`,
and the new node count `nnod = len(uniq)`. -/
def weld (nel nnd : ℕ) (rows : List (List ℕ)) (coors : List (List ℚ)) :
    List (List ℕ) × List (List ℚ) × ℕ :=
  (chunk nel nnd (weld_ntri (nel * nnd) rows),
    (weldKeys (nel * nnd) rows).map fun key => coors.getD (key.headD 0) [],
    (weldKeys (nel * nnd) rows).length)

/-! ## 2D voxel mesh generation (seg2fem.gen_mesh_from_voxels, dim = 2) -/

def occ2 (voxels : List (List Bool)) (i j : ℕ) : Bool := (voxels.getD i []).getD j false

/-- Row-major enumeration of an nx-by-ny index grid (the order of nm.where). -/
def gridPts (nx ny : ℕ) : List (ℕ × ℕ) :=
  (List.range nx).flatMap fun i => (List.range ny).map fun j => (i, j)

/-- nm.where(voxels): the occupied voxel indices in row-major order. -/
def vxidxs2 (v : List (List Bool)) : List (ℕ × ℕ) :=
  (gridPts v.length (v.headD []).length).filter fun p => occ2 v p.1 p.2

/-- Modelled from the spec: `genfem_base.set_nodemtx` (whose source is not
under src/) marks every grid corner of every occupied voxel in the padded
node grid. -/
def nodemtx2 (v : List (List Bool)) (p : ℕ × ℕ) : Bool :=
  occ2 v p.1 p.2 || (decide (0 < p.1) && occ2 v (p.1 - 1) p.2)
    || (decide (0 < p.2) && occ2 v p.1 (p.2 - 1))
    || (decide (0 < p.1) && decide (0 < p.2) && occ2 v (p.1 - 1) (p.2 - 1))

/-- nm.where(nodemtx): the marked padded-grid nodes in row-major order. -/
def ndidx2 (v : List (List Bool)) : List (ℕ × ℕ) :=
  (gridPts (v.length + 2) ((v.headD []).length + 2)).filter (nodemtx2 v)

/-- coors = array(ndidx).transpose() * dims. -/
def coors2 (v : List (List Bool)) (dims : List ℚ) : List (List ℚ) :=
  (ndidx2 v).map fun p => [(p.1 : ℚ) * dims.getD 0 0, (p.2 : ℚ) * dims.getD 1 0]

/-- The nodeid lookup array: the rank of a marked node in ndidx (the source
stores -1 at unmarked nodes; those are never referenced by emitted cells, and
indexOf returns the out-of-range list length there). -/
def nodeid2 (v : List (List Bool)) (p : ℕ × ℕ) : ℕ := (ndidx2 v).indexOf p

/-- Volumetric 2D elements: one quad per occupied voxel, corners in the fixed
order (ix,iy), (ix+1,iy), (ix+1,iy+1), (ix,iy+1). -/
def elemsV2 (v : List (List Bool)) : List (List ℕ) :=
  (vxidxs2 v).map fun p =>
    [nodeid2 v (p.1, p.2), nodeid2 v (p.1 + 1, p.2),
     nodeid2 v (p.1 + 1, p.2 + 1), nodeid2 v (p.1, p.2 + 1)]

/-- Parity counter for x-direction faces: `nn[ix, iy] = 1` on occupied
voxels, then `nn[ix + 1, iy] += 1`; a face is kept iff the counter is 1. -/
def nnX2 (v : List (List Bool)) (p : ℕ × ℕ) : ℕ :=
  (if occ2 v p.1 p.2 then 1 else 0) +
    (if 0 < p.1 ∧ occ2 v (p.1 - 1) p.2 = true then 1 else 0)

/-- The x-direction face stored at grid position p; the second fancy
assignment (`fc[ix + 1, iy]`) overwrites the first where both hit, which only
happens at faces the parity counter discards. -/
def fcX2 (v : List (List Bool)) (p : ℕ × ℕ) : List ℕ :=
  if 0 < p.1 ∧ occ2 v (p.1 - 1) p.2 = true then
    [nodeid2 v p, nodeid2 v (p.1, p.2 + 1)]
  else [nodeid2 v (p.1, p.2 + 1), nodeid2 v p]

def nnY2 (v : List (List Bool)) (p : ℕ × ℕ) : ℕ :=
  (if occ2 v p.1 p.2 then 1 else 0) +
    (if 0 < p.2 ∧ occ2 v p.1 (p.2 - 1) = true then 1 else 0)

def fcY2 (v : List (List Bool)) (p : ℕ × ℕ) : List ℕ :=
  if 0 < p.2 ∧ occ2 v p.1 (p.2 - 1) = true then
    [nodeid2 v (p.1 + 1, p.2), nodeid2 v p]
  else [nodeid2 v p, nodeid2 v (p.1 + 1, p.2)]

/-- Surface (boundary edge) elements for dim 2: per axis direction, the faces
whose parity counter equals exactly 1, in row-major grid order, x faces then
y faces (felems concatenation). -/
def elemsS2 (v : List (List Bool)) : List (List ℕ) :=
  (((gridPts (v.length + 2) ((v.headD []).length + 2)).filter fun p =>
      nnX2 v p = 1).map (fcX2 v)) ++
    (((gridPts (v.length + 2) ((v.headD []).length + 2)).filter fun p =>
      nnY2 v p = 1).map (fcY2 v))

/-- Ascending list of the node ids referenced by the surface elements
(aux marking followed by idx = nm.where(aux)). -/
def usedIds (nnod : ℕ) (elems : List (List ℕ)) : List ℕ :=
  (List.range nnod).filter fun i => elems.any fun e => e.contains i

/-- The seg2fem meshio_types table. -/
def meshioTypes (key : String) : Option String :=
  if key = "2_3" then some "triangle"
  else if key = "2_4" then some "quad"
  else if key = "3_4" then some "tetra"
  else if key = "3_8" then some "hexahedron"
  else none

/-- seg2fem.gen_mesh_from_voxels for a 2D voxel array (etype 'q' or 't',
mtype 'v' or 's').  The cell width is tracked alongside the rows, as the
numpy shape is (a list of rows loses the width when there are zero rows).
With mtype 's' and etype 't' the source additionally feeds 2-wide rows into
elems_q2t, whose 3-wide table indexing raises a numpy IndexError; the claims
evaluate etype 'q', where the failure is the meshio_types KeyError. -/
def gen_mesh_from_voxels_2d (voxels : List (List Bool)) (dims : List ℚ)
    (etype mtype : String) : Except String MeshS :=
  let coors := coors2 voxels dims
  let elems0 := if mtype = "s" then elemsS2 voxels else elemsV2 voxels
  let width0 : ℕ := if mtype = "s" then 2 else 4
  let edim : ℕ := if mtype = "s" then 1 else 2
  let used := usedIds (ndidx2 voxels).length elems0
  let coors1 := if mtype = "s" then used.map (fun i => coors.getD i []) else coors
  let elems1 :=
    if mtype = "s" then elems0.map (fun e => e.map fun i => used.indexOf i) else elems0
  let elems2 := if etype = "t" then elems_q2t elems1 width0 else elems1
  let nelnd := if etype = "t" then q2tWidth width0 else width0
  match meshioTypes (toString edim ++ "_" ++ toString nelnd) with
  | some t => .ok ⟨coors1, t, elems2⟩
  | none => .error ("KeyError: " ++ toString edim ++ "_" ++ toString nelnd)

/-- Decidable equality for call results (Except is not derived in core). -/
instance instDecEqExcept {e a : Type} [DecidableEq e] [DecidableEq a] :
    DecidableEq (Except e a) := fun x y =>
  match x, y with
  | .ok u, .ok v =>
      if h : u = v then isTrue (by rw [h]) else isFalse (fun hh => h (Except.ok.inj hh))
  | .error u, .error v =>
      if h : u = v then isTrue (by rw [h]) else isFalse (fun hh => h (Except.error.inj hh))
  | .ok _, .error _ => isFalse (fun hh => by cases hh)
  | .error _, .ok _ => isFalse (fun hh => by cases hh)

/-! ## Helper lemmas -/

theorem getD_map_range {α : Type} (f : ℕ → α) (n r : ℕ) (d : α) (h : r < n) :
    ((List.range n).map f).getD r d = f r := by
  rw [List.getD_eq_getElem?_getD, List.getElem?_map, List.getElem?_range h]
  rfl

theorem elems_q2t_length (el : List (List ℕ)) (nnd : ℕ) :
    (elems_q2t el nnd).length = el.length * (q2tTable nnd).length := by
  simp [elems_q2t]

theorem elems_q2t_getD (el : List (List ℕ)) (nnd r : ℕ)
    (h : r < el.length * (q2tTable nnd).length) :
    (elems_q2t el nnd).getD r [] =
      ((q2tTable nnd).getD (r % (q2tTable nnd).length) []).map fun c =>
        (el.getD (r / (q2tTable nnd).length) []).getD c 0 := by
  rw [elems_q2t, getD_map_range _ _ _ _ h]

theorem q2tTable_length_pos (nnd : ℕ) : 0 < (q2tTable nnd).length := by
  unfold q2tTable; split <;> simp

/-! ## Claim C4 -/

/-- C4 (counterexample): the claim says that for `n` original cells split into
`s` sub-cells each, output rows `k*n .. k*n+n-1` are sub-cell `k` of original
cells `0 .. n-1`.  For the two quads `[0,1,2,3]` and `[4,5,6,7]` (`n = 2`,
`s = 2`) the claim puts sub-cell 0 of cell 1, namely `[4,5,6]`, at row 1;
the code instead stores sub-cell 1 of cell 0 there. -/
theorem c4_counterexample :
    (elems_q2t [[0, 1, 2, 3], [4, 5, 6, 7]] 4).getD 1 [] ≠ [4, 5, 6] := by
  decide

/-- C4 (amended): the splitter groups the output by original cell, not by
sub-cell copy: row `j*s + k` is sub-cell `k` of original cell `j`, so all
sub-cells of one original cell form one contiguous block and the copy-`k`
sub-cells are interleaved with stride `s`. -/
theorem c4_blocks (el : List (List ℕ)) (nnd j k : ℕ)
    (hj : j < el.length) (hk : k < (q2tTable nnd).length) :
    (elems_q2t el nnd).getD (j * (q2tTable nnd).length + k) [] =
      ((q2tTable nnd).getD k []).map fun c => (el.getD j []).getD c 0 := by
  have hs : 0 < (q2tTable nnd).length := q2tTable_length_pos nnd
  have hr : j * (q2tTable nnd).length + k < el.length * (q2tTable nnd).length := by
    have h1 : j * (q2tTable nnd).length + k < (j + 1) * (q2tTable nnd).length := by
      rw [Nat.succ_mul]; omega
    exact lt_of_lt_of_le h1 (Nat.mul_le_mul_right _ hj)
  rw [elems_q2t_getD el nnd _ hr]
  have hmod : (j * (q2tTable nnd).length + k) % (q2tTable nnd).length = k := by
    rw [add_comm, Nat.add_mul_mod_self_right, Nat.mod_eq_of_lt hk]
  have hdiv : (j * (q2tTable nnd).length + k) / (q2tTable nnd).length = j := by
    rw [add_comm, Nat.add_mul_div_right _ _ hs, Nat.div_eq_of_lt hk, Nat.zero_add]
  rw [hmod, hdiv]

/-- Every node index that `elems_q2t` writes is read off the original cell of
its output row, provided the table indices stay below the cell width. -/
theorem elems_q2t_subset (el : List (List ℕ)) (nnd : ℕ)
    (hlen : ∀ c ∈ el, c.length = nnd)
    (htab : ∀ t ∈ q2tTable nnd, ∀ c ∈ t, c < nnd)
    (r : ℕ) (hr : r < el.length * (q2tTable nnd).length) :
    ∀ x ∈ (elems_q2t el nnd).getD r [], x ∈ el.getD (r / (q2tTable nnd).length) [] := by
  intro x hx
  rw [elems_q2t_getD el nnd r hr] at hx
  rcases List.mem_map.mp hx with ⟨c, hc, hcx⟩
  have hs : 0 < (q2tTable nnd).length := q2tTable_length_pos nnd
  have hmod : r % (q2tTable nnd).length < (q2tTable nnd).length := Nat.mod_lt _ hs
  have hrow : (q2tTable nnd).getD (r % (q2tTable nnd).length) [] ∈ q2tTable nnd := by
    rw [List.getD_eq_getElem _ _ hmod]; exact List.getElem_mem _
  have hcn : c < nnd := htab _ hrow c hc
  have hdiv : r / (q2tTable nnd).length < el.length :=
    Nat.div_lt_of_lt_mul (by rw [mul_comm]; exact hr)
  have hcell : el.getD (r / (q2tTable nnd).length) [] ∈ el := by
    rw [List.getD_eq_getElem _ _ hdiv]; exact List.getElem_mem _
  have hclen : (el.getD (r / (q2tTable nnd).length) []).length = nnd := hlen _ hcell
  have hcl : c < (el.getD (r / (q2tTable nnd).length) []).length := by
    rw [hclen]; exact hcn
  rw [← hcx, List.getD_eq_getElem _ 0 hcl]
  exact List.getElem_mem _

/-! ## Claim C5 -/

/-- C5: the splitter introduces no new nodes (every output index is an entry
of the original cell of its row), each quad yields exactly the triangles
`(0,1,2)` and `(0,2,3)` of its corners, each hexahedron yields exactly the 6
tetrahedra of the fixed table, and output counts are `2 *` resp. `6 *` the
input count. -/
theorem c5_tables (el4 el8 : List (List ℕ))
    (h4 : ∀ c ∈ el4, c.length = 4) (h8 : ∀ c ∈ el8, c.length = 8) :
    (elems_q2t el4 4).length = 2 * el4.length ∧
    (elems_q2t el8 8).length = 6 * el8.length ∧
    (∀ j, j < el4.length →
      (elems_q2t el4 4).getD (2 * j) [] =
        [(el4.getD j []).getD 0 0, (el4.getD j []).getD 1 0, (el4.getD j []).getD 2 0] ∧
      (elems_q2t el4 4).getD (2 * j + 1) [] =
        [(el4.getD j []).getD 0 0, (el4.getD j []).getD 2 0, (el4.getD j []).getD 3 0]) ∧
    (∀ j k, j < el8.length → k < 6 →
      (elems_q2t el8 8).getD (6 * j + k) [] =
        ((q2tTable 8).getD k []).map fun c => (el8.getD j []).getD c 0) ∧
    (∀ r, r < 2 * el4.length →
      ∀ x ∈ (elems_q2t el4 4).getD r [], x ∈ el4.getD (r / 2) []) ∧
    (∀ r, r < 6 * el8.length →
      ∀ x ∈ (elems_q2t el8 8).getD r [], x ∈ el8.getD (r / 6) []) := by
  have hl4 : (q2tTable 4).length = 2 := rfl
  have hl8 : (q2tTable 8).length = 6 := rfl
  refine ⟨?_, ?_, ?_, ?_, ?_, ?_⟩
  · rw [elems_q2t_length, hl4, mul_comm]
  · rw [elems_q2t_length, hl8, mul_comm]
  · intro j hj
    constructor
    · have h := c4_blocks el4 4 j 0 hj (by decide)
      rw [hl4, show j * 2 + 0 = 2 * j from by ring] at h
      simpa using h
    · have h := c4_blocks el4 4 j 1 hj (by decide)
      rw [hl4, show j * 2 + 1 = 2 * j + 1 from by ring] at h
      simpa using h
  · intro j k hj hk
    have h := c4_blocks el8 8 j k hj (by rw [hl8]; exact hk)
    rw [hl8, show j * 6 + k = 6 * j + k from by ring] at h
    exact h
  · intro r hr
    have h := elems_q2t_subset el4 4 h4 (by decide) r (by rw [hl4]; omega)
    rw [hl4] at h
    exact h
  · intro r hr
    have h := elems_q2t_subset el8 8 h8 (by decide) r (by rw [hl8]; omega)
    rw [hl8] at h
    exact h

/-- C5 (witness): the theorem applied to one concrete quad and one concrete
hexahedron. -/
theorem c5_tables_witness :
    (∀ c ∈ ([[10, 11, 12, 13]] : List (List ℕ)), c.length = 4) ∧
    (∀ c ∈ ([[20, 21, 22, 23, 24, 25, 26, 27]] : List (List ℕ)), c.length = 8) ∧
    ((elems_q2t [[10, 11, 12, 13]] 4).length = 2 * 1 ∧
      (elems_q2t [[20, 21, 22, 23, 24, 25, 26, 27]] 8).length = 6 * 1 ∧
      (∀ j, j < ([[10, 11, 12, 13]] : List (List ℕ)).length →
        (elems_q2t [[10, 11, 12, 13]] 4).getD (2 * j) [] =
          [(([[10, 11, 12, 13]] : List (List ℕ)).getD j []).getD 0 0,
           (([[10, 11, 12, 13]] : List (List ℕ)).getD j []).getD 1 0,
           (([[10, 11, 12, 13]] : List (List ℕ)).getD j []).getD 2 0] ∧
        (elems_q2t [[10, 11, 12, 13]] 4).getD (2 * j + 1) [] =
          [(([[10, 11, 12, 13]] : List (List ℕ)).getD j []).getD 0 0,
           (([[10, 11, 12, 13]] : List (List ℕ)).getD j []).getD 2 0,
           (([[10, 11, 12, 13]] : List (List ℕ)).getD j []).getD 3 0]) ∧
      (∀ j k, j < ([[20, 21, 22, 23, 24, 25, 26, 27]] : List (List ℕ)).length → k < 6 →
        (elems_q2t [[20, 21, 22, 23, 24, 25, 26, 27]] 8).getD (6 * j + k) [] =
          ((q2tTable 8).getD k []).map fun c =>
            (([[20, 21, 22, 23, 24, 25, 26, 27]] : List (List ℕ)).getD j []).getD c 0) ∧
      (∀ r, r < 2 * ([[10, 11, 12, 13]] : List (List ℕ)).length →
        ∀ x ∈ (elems_q2t [[10, 11, 12, 13]] 4).getD r [],
          x ∈ ([[10, 11, 12, 13]] : List (List ℕ)).getD (r / 2) []) ∧
      (∀ r, r < 6 * ([[20, 21, 22, 23, 24, 25, 26, 27]] : List (List ℕ)).length →
        ∀ x ∈ (elems_q2t [[20, 21, 22, 23, 24, 25, 26, 27]] 8).getD r [],
          x ∈ ([[20, 21, 22, 23, 24, 25, 26, 27]] : List (List ℕ)).getD (r / 6) [])) :=
  ⟨by decide, by decide,
    c5_tables [[10, 11, 12, 13]] [[20, 21, 22, 23, 24, 25, 26, 27]] (by decide) (by decide)⟩

/-- C4 (witness): the amended layout at a concrete input: for two quads,
row `1*2 + 0` is sub-cell 0 of original cell 1. -/
theorem c4_blocks_witness :
    1 < ([[0, 1, 2, 3], [4, 5, 6, 7]] : List (List ℕ)).length ∧
    0 < (q2tTable 4).length ∧
    (elems_q2t [[0, 1, 2, 3], [4, 5, 6, 7]] 4).getD (1 * (q2tTable 4).length + 0) [] =
      [4, 5, 6] :=
  ⟨by decide, by decide,
    (c4_blocks [[0, 1, 2, 3], [4, 5, 6, 7]] 4 1 0 (by decide) (by decide)).trans (by decide)⟩

/-! ## Claim C7 -/

/-- C7: with n_iter = 0 the smoother returns the input coordinates unchanged
for every mesh, every weight matrix (supplied or not) and every parameter
set, and raises no error: the taubin loop body never runs and the result is
the copy of mesh.points. -/
theorem c7_identity (mesh : MeshS) (lam mu : ℚ) (weights : Option (List (List ℚ)))
    (bconstr : Bool) :
    smooth_mesh mesh 0 lam mu weights bconstr false = .ok mesh.points := rfl

section RatEval

/- Batteries marks the ℚ field operations irreducible for performance; the
concrete evaluations below reduce them by decide, which needs them unfolded. -/
attribute [local semireducible] Rat.add Rat.mul Rat.sub Rat.inv

/-! ## Claim C2 -/

/-- C2: a zero total mesh volume is not detected.  At a degenerate triangle
whose three nodes coincide, both volumes are 0 and `scale = volume0 / volume`
divides by zero — a numpy warning producing nan (the junk value 0 in the ℚ
model), not an exception — and the call returns ok-coordinates built from
that quotient instead of surfacing the claimed Numeric-Degeneracy error. -/
theorem c2_no_degeneracy_error :
    smooth_mesh ⟨[[1, 1], [1, 1], [1, 1]], "triangle", [[0, 1, 2]]⟩ 0 (6307 / 10000)
        (-(6347 / 10000)) (some [[1, 0, 0], [0, 1, 0], [0, 0, 1]]) true true =
      .ok [[0, 0], [0, 0], [0, 0]] := by decide

/-! ## Claim C3 -/

/-- C3: volume correction of a quadrilateral mesh does not decompose the
cells and does not succeed: `etype` is the string "2_4", which is compared
with "quad", so `elems_q2t` is never called, and the 4-wide cells then fail
numpy's broadcast into the (dim+1)-wide determinant matrix. -/
theorem c3_quad_volume_error :
    smooth_mesh ⟨[[0, 0], [1, 0], [1, 1], [0, 1]], "quad", [[0, 1, 2, 3]]⟩ 0 (6307 / 10000)
        (-(6347 / 10000))
        (some [[1, 0, 0, 0], [0, 1, 0, 0], [0, 0, 1, 0], [0, 0, 0, 1]]) true true =
      .error "could not broadcast input array" := by decide

/-! ## Claim C1 -/

set_option maxRecDepth 4000 in
/-- C1 (counterexample): volume correction does not preserve the total signed
volume.  One smoothing iteration of the triangle (0,0), (4,0), (0,4) under a
uniform row-stochastic weight matrix shrinks it; the correction rescales by
scale = volume0 / volume about the centroid, which multiplies the area by
scale^2, overshooting to volume0^2 / volume — the relative error is about
343, far above 1e-9. -/
theorem c1_counterexample :
    volume_preserved_check [[0, 1, 2]] [[0, 0], [4, 0], [0, 4]]
      (smooth_mesh ⟨[[0, 0], [4, 0], [0, 4]], "triangle", [[0, 1, 2]]⟩ 1 (6307 / 10000)
        (-(6347 / 10000))
        (some [[0, 1 / 2, 1 / 2], [1 / 2, 0, 1 / 2], [1 / 2, 1 / 2, 0]]) true true) =
      false := by decide

end RatEval

/-! ## Shape and scaling lemmas for the C1 amendment -/

theorem mem_zipWith {α β γ : Type} {f : α → β → γ} {x : γ} :
    ∀ {as : List α} {bs : List β}, x ∈ List.zipWith f as bs →
      ∃ a b, a ∈ as ∧ b ∈ bs ∧ x = f a b := by
  intro as
  induction as with
  | nil => intro bs h; simp at h
  | cons a as ih =>
    intro bs h
    cases bs with
    | nil => simp at h
    | cons b bs =>
      rw [List.zipWith_cons_cons, List.mem_cons] at h
      rcases h with h | h
      · exact ⟨a, b, List.mem_cons_self _ _, List.mem_cons_self _ _, h⟩
      · rcases ih h with ⟨a0, b0, ha, hb, hx⟩
        exact ⟨a0, b0, List.mem_cons_of_mem _ ha, List.mem_cons_of_mem _ hb, hx⟩

theorem headD_len2 (l : List (List ℚ)) (hne : l ≠ []) (h : ∀ p ∈ l, p.length = 2) :
    (l.headD []).length = 2 := by
  cases l with
  | nil => exact absurd rfl hne
  | cons p t => exact h p (List.mem_cons_self _ _)

theorem exists_pair_of_len2 (p : List ℚ) (h : p.length = 2) : ∃ a b : ℚ, p = [a, b] := by
  cases p with
  | nil => simp at h
  | cons a t =>
    cases t with
    | nil => simp at h
    | cons b t2 =>
      cases t2 with
      | nil => exact ⟨a, b, rfl⟩
      | cons c t3 => simp at h

theorem addVec_len2 (a b : List ℚ) (ha : a.length = 2) (hb : b.length = 2) :
    (addVec a b).length = 2 := by
  simp [addVec, ha, hb]

theorem smulVec_len (s : ℚ) (a : List ℚ) : (smulVec s a).length = a.length := by
  simp [smulVec]

theorem foldl_addVec_len2 (l : List (List ℚ)) :
    ∀ acc : List ℚ, acc.length = 2 → (∀ x ∈ l, x.length = 2) →
      (l.foldl addVec acc).length = 2 := by
  induction l with
  | nil => intro acc hacc _; simpa using hacc
  | cons x t ih =>
    intro acc hacc hl
    rw [List.foldl_cons]
    exact ih (addVec acc x) (addVec_len2 _ _ hacc (hl x (List.mem_cons_self _ _)))
      (fun y hy => hl y (List.mem_cons_of_mem _ hy))

/-- Every corner row read by the 2D volume formulas is an honest length-2 row
of `nd` (an out-of-range table index reads node 0, which exists). -/
theorem ndRow_len2 (nd : List (List ℚ)) (c : List ℕ) (k : ℕ)
    (hnd : ∀ p ∈ nd, p.length = 2) (hne : nd ≠ [])
    (hix : ∀ x ∈ c, x < nd.length) : (ndRow nd c k).length = 2 := by
  have hlen : nd.length ≠ 0 := fun h => hne (List.eq_nil_of_length_eq_zero h)
  have hj : c.getD k 0 < nd.length := by
    by_cases hk : k < c.length
    · exact hix _ (by rw [List.getD_eq_getElem _ _ hk]; exact List.getElem_mem _)
    · rw [List.getD_eq_default _ _ (by omega)]; omega
  rw [ndRow, List.getD_eq_getElem _ _ hj]
  exact hnd _ (List.getElem_mem _)

theorem aff_nil (s : ℚ) (bc : List ℚ) : aff s bc [] = [] := rfl

theorem map_aff_getD (s : ℚ) (bc : List ℚ) (l : List (List ℚ)) (i : ℕ) :
    (l.map (aff s bc)).getD i [] = aff s bc (l.getD i []) := by
  rw [List.getD_eq_getElem?_getD, List.getD_eq_getElem?_getD, List.getElem?_map]
  cases h : l[i]? with
  | none => simp [aff_nil]
  | some p => simp

theorem aff_pair (s c0 c1 a b : ℚ) :
    aff s [c0, c1] [a, b] = [s * (a - c0) + c0, s * (b - c1) + c1] := rfl

theorem detAug2_aff (s c0 c1 a1 b1 a2 b2 a3 b3 : ℚ) :
    detAug2 (aff s [c0, c1] [a1, b1]) (aff s [c0, c1] [a2, b2]) (aff s [c0, c1] [a3, b3]) =
      s ^ 2 * detAug2 [a1, b1] [a2, b2] [a3, b3] := by
  simp [aff_pair, detAug2, getC, List.getD]
  ring

/-- Rescaling every node by `s` about any centre multiplies every signed
simplex area, hence the total signed area, by `s ^ 2`. -/
theorem vol2_aff (el : List (List ℕ)) (nd : List (List ℚ)) (s c0 c1 : ℚ)
    (hnd : ∀ p ∈ nd, p.length = 2) (hne : nd ≠ [])
    (hix : ∀ c ∈ el, ∀ x ∈ c, x < nd.length) :
    vol2 el (nd.map (aff s [c0, c1])) = s ^ 2 * vol2 el nd := by
  induction el with
  | nil => simp [vol2, vols2]
  | cons c t ih =>
    have hrows : ∀ k : ℕ, (ndRow nd c k).length = 2 := fun k =>
      ndRow_len2 nd c k hnd hne (hix c (List.mem_cons_self _ _))
    have hmap : ∀ k : ℕ, ndRow (nd.map (aff s [c0, c1])) c k = aff s [c0, c1] (ndRow nd c k) :=
      fun k => map_aff_getD s [c0, c1] nd (c.getD k 0)
    rcases exists_pair_of_len2 _ (hrows 0) with ⟨a1, b1, h1⟩
    rcases exists_pair_of_len2 _ (hrows 1) with ⟨a2, b2, h2⟩
    rcases exists_pair_of_len2 _ (hrows 2) with ⟨a3, b3, h3⟩
    have ht := ih (fun c hc => hix c (List.mem_cons_of_mem _ hc))
    simp only [vol2, vols2, List.map_cons, List.sum_cons] at ht ⊢
    rw [hmap 0, hmap 1, hmap 2, h1, h2, h3, detAug2_aff, ht]
    ring

theorem bc2_len2 (el : List (List ℕ)) (nd : List (List ℚ))
    (hnd : ∀ p ∈ nd, p.length = 2) (hne : nd ≠ [])
    (hix : ∀ c ∈ el, ∀ x ∈ c, x < nd.length) : (bc2 3 el nd).length = 2 := by
  rw [bc2, smulVec_len]
  refine foldl_addVec_len2 _ _ (by simp) ?_
  intro x hx
  rcases mem_zipWith hx with ⟨v, c, _, hc, hxv⟩
  rw [hxv, smulVec_len, centSum2, smulVec_len]
  have h0 := ndRow_len2 nd c 0 hnd hne (hix c hc)
  have h1 := ndRow_len2 nd c 1 hnd hne (hix c hc)
  have h2 := ndRow_len2 nd c 2 hnd hne (hix c hc)
  exact addVec_len2 _ _ (addVec_len2 _ _ h0 h1) h2

/-- get_volume takes the 2D simplex branch: with a 2-column node array and a
3-column cell array the etype string is "2_3", the (dead) quad/hexahedron
comparison fails, the broadcast check passes, and the result is the signed
area and area-weighted centroid. -/
theorem get_volume_tri (el : List (List ℕ)) (nd : List (List ℚ))
    (h2 : (nd.headD []).length = 2) (h3 : (el.headD []).length = 3) :
    get_volume el nd = .ok (vol2 el nd, bc2 3 el nd) := by
  unfold get_volume get_volume_core
  rw [h2, h3]
  rw [if_neg (by decide), if_pos (by decide), if_pos rfl]

/-- Each taubin step keeps the node count and the row width 2. -/
theorem taubinStep_shape (coors W : List (List ℚ)) (f : ℚ)
    (hW : W.length = coors.length) (hpts : ∀ p ∈ coors, p.length = 2)
    (hne : coors ≠ []) :
    (taubinStep coors W f).length = coors.length ∧
      ∀ p ∈ taubinStep coors W f, p.length = 2 := by
  have hhead : (coors.headD []).length = 2 := headD_len2 _ hne hpts
  have hmv : ∀ p ∈ matVecs W coors, p.length = 2 := by
    intro p hp
    rcases List.mem_map.mp hp with ⟨w, _, hw⟩
    rw [← hw, dotRow, hhead]
    refine foldl_addVec_len2 _ _ (by simp) ?_
    intro x hx
    rcases mem_zipWith hx with ⟨wij, row, _, hrow, hxv⟩
    rw [hxv, smulVec_len]
    exact hpts row hrow
  have hmvlen : (matVecs W coors).length = coors.length := by
    rw [matVecs, List.length_map, hW]
  have hlap : ∀ p ∈ laplacian coors W, p.length = 2 := by
    intro p hp
    rcases mem_zipWith hp with ⟨a, b, ha, hb, hab⟩
    rw [hab, subVec, List.length_zipWith, hmv a ha, hpts b hb]
    simp
  have hlaplen : (laplacian coors W).length = coors.length := by
    rw [laplacian, List.length_zipWith, hmvlen, Nat.min_self]
  constructor
  · rw [taubinStep, List.length_zipWith, List.length_map, hlaplen, Nat.min_self]
  · intro p hp
    rcases mem_zipWith hp with ⟨a, b, ha, hb, hab⟩
    rcases List.mem_map.mp hb with ⟨d, hd, hdb⟩
    rw [hab, addVec, List.length_zipWith, hpts a ha, ← hdb, smulVec_len, hlap d hd]
    simp

/-- The taubin iteration keeps the node count and the row width 2. -/
theorem taubin_shape (points W : List (List ℚ)) (lam mu : ℚ) (n : ℕ)
    (hW : W.length = points.length) (hpts : ∀ p ∈ points, p.length = 2)
    (hne : points ≠ []) :
    (taubin points W lam mu n).length = points.length ∧
      ∀ p ∈ taubin points W lam mu n, p.length = 2 := by
  rw [taubin]
  generalize List.range n = l
  induction l generalizing points with
  | nil => exact ⟨rfl, hpts⟩
  | cons i t ih =>
    rw [List.foldl_cons]
    have hne' : points.length ≠ 0 := fun h => hne (List.eq_nil_of_length_eq_zero h)
    have hs := taubinStep_shape points W (if i % 2 = 0 then lam else mu) hW hpts hne
    have hsne : taubinStep points W (if i % 2 = 0 then lam else mu) ≠ [] := by
      intro h
      have hl := hs.1
      rw [h] at hl
      simp at hl
      exact hne (List.eq_nil_of_length_eq_zero hl.symm)
    have := ih (taubinStep points W (if i % 2 = 0 then lam else mu))
      (by rw [hs.1, hW]) hs.2 hsne
    exact ⟨this.1.trans hs.1, this.2⟩

/-! ## Claim C1, amended -/

/-- C1 (amended): the correction step rescales the smoothed coordinates by
scale = volume0 / volume about the pre-smoothing centroid, which multiplies
the returned total signed volume by scale^2 (scale^dim in general), so the
returned volume is scale^2 * volume = volume0^2 / volume rather than
volume0; the pre-smoothing volume is recovered only when the smoothing pass
itself did not change the volume (for instance when n_iter = 0). -/
theorem c1_volume_scaling (points : List (List ℚ)) (ctype : String)
    (cells : List (List ℕ)) (W : List (List ℚ)) (lam mu : ℚ) (n_iter : ℕ) (bconstr : Bool)
    (hne : points ≠ []) (hpts : ∀ p ∈ points, p.length = 2)
    (hW : W.length = points.length)
    (hc : (cells.headD []).length = 3)
    (hix : ∀ c ∈ cells, ∀ x ∈ c, x < points.length) :
    smooth_mesh ⟨points, ctype, cells⟩ n_iter lam mu (some W) bconstr true =
      .ok ((taubin points W lam mu n_iter).map
        (aff (vol2 cells points / vol2 cells (taubin points W lam mu n_iter))
          (bc2 3 cells points))) ∧
    vol2 cells ((taubin points W lam mu n_iter).map
        (aff (vol2 cells points / vol2 cells (taubin points W lam mu n_iter))
          (bc2 3 cells points))) =
      (vol2 cells points / vol2 cells (taubin points W lam mu n_iter)) ^ 2 *
        vol2 cells (taubin points W lam mu n_iter) := by
  have hts := taubin_shape points W lam mu n_iter hW hpts hne
  have htslen : (taubin points W lam mu n_iter).length = points.length := hts.1
  have htne : taubin points W lam mu n_iter ≠ [] := by
    intro h
    have hl := hts.1
    rw [h] at hl
    simp at hl
    exact hne (List.eq_nil_of_length_eq_zero hl.symm)
  have hg1 := get_volume_tri cells points (headD_len2 _ hne hpts) hc
  have hg2 := get_volume_tri cells (taubin points W lam mu n_iter)
    (headD_len2 _ htne hts.2) hc
  have hixT : ∀ c ∈ cells, ∀ x ∈ c, x < (taubin points W lam mu n_iter).length := by
    intro c hcm x hx
    rw [htslen]
    exact hix c hcm x hx
  constructor
  · simp only [smooth_mesh]
    rw [hg1, hg2, if_pos trivial]
    rfl
  · rcases exists_pair_of_len2 _ (bc2_len2 cells points hpts hne hix) with ⟨c0, c1, hbc⟩
    rw [hbc]
    exact vol2_aff cells (taubin points W lam mu n_iter) _ c0 c1 hts.2 htne hixT

/-- C1 (witness): the amended scaling law applied to a concrete triangle mesh
with the identity weight matrix and n_iter = 0. -/
theorem c1_volume_scaling_witness :
    (([[0, 0], [4, 0], [0, 4]] : List (List ℚ)) ≠ []) ∧
    (∀ p ∈ ([[0, 0], [4, 0], [0, 4]] : List (List ℚ)), p.length = 2) ∧
    ([[1, 0, 0], [0, 1, 0], [0, 0, 1]] : List (List ℚ)).length =
      ([[0, 0], [4, 0], [0, 4]] : List (List ℚ)).length ∧
    ((([[0, 1, 2]] : List (List ℕ)).headD []).length = 3) ∧
    (∀ c ∈ ([[0, 1, 2]] : List (List ℕ)), ∀ x ∈ c,
      x < ([[0, 0], [4, 0], [0, 4]] : List (List ℚ)).length) ∧
    (smooth_mesh ⟨[[0, 0], [4, 0], [0, 4]], "triangle", [[0, 1, 2]]⟩ 0 (6307 / 10000)
        (-(6347 / 10000)) (some [[1, 0, 0], [0, 1, 0], [0, 0, 1]]) true true =
      .ok ((taubin [[0, 0], [4, 0], [0, 4]] [[1, 0, 0], [0, 1, 0], [0, 0, 1]]
            (6307 / 10000) (-(6347 / 10000)) 0).map
        (aff (vol2 [[0, 1, 2]] [[0, 0], [4, 0], [0, 4]] /
            vol2 [[0, 1, 2]] (taubin [[0, 0], [4, 0], [0, 4]]
              [[1, 0, 0], [0, 1, 0], [0, 0, 1]] (6307 / 10000) (-(6347 / 10000)) 0))
          (bc2 3 [[0, 1, 2]] [[0, 0], [4, 0], [0, 4]]))) ∧
      vol2 [[0, 1, 2]] ((taubin [[0, 0], [4, 0], [0, 4]] [[1, 0, 0], [0, 1, 0], [0, 0, 1]]
            (6307 / 10000) (-(6347 / 10000)) 0).map
        (aff (vol2 [[0, 1, 2]] [[0, 0], [4, 0], [0, 4]] /
            vol2 [[0, 1, 2]] (taubin [[0, 0], [4, 0], [0, 4]]
              [[1, 0, 0], [0, 1, 0], [0, 0, 1]] (6307 / 10000) (-(6347 / 10000)) 0))
          (bc2 3 [[0, 1, 2]] [[0, 0], [4, 0], [0, 4]]))) =
      (vol2 [[0, 1, 2]] [[0, 0], [4, 0], [0, 4]] /
          vol2 [[0, 1, 2]] (taubin [[0, 0], [4, 0], [0, 4]]
            [[1, 0, 0], [0, 1, 0], [0, 0, 1]] (6307 / 10000) (-(6347 / 10000)) 0)) ^ 2 *
        vol2 [[0, 1, 2]] (taubin [[0, 0], [4, 0], [0, 4]]
          [[1, 0, 0], [0, 1, 0], [0, 0, 1]] (6307 / 10000) (-(6347 / 10000)) 0)) :=
  ⟨by decide, by decide, by decide, by decide, by decide,
    c1_volume_scaling [[0, 0], [4, 0], [0, 4]] "triangle" [[0, 1, 2]]
      [[1, 0, 0], [0, 1, 0], [0, 0, 1]] (6307 / 10000) (-(6347 / 10000)) 0 true
      (by decide) (by decide) (by decide) (by decide) (by decide)⟩

/-! ## Claim C8 -/

/-- C8: the smoother call leaves the input mesh unchanged — the points and
the cell block after the call are exactly the input fields — and hands the
smoothed coordinates back as the separate smooth_mesh result rather than
writing them into the mesh. -/
theorem c8_no_mutation (mesh : MeshS) (n_iter : ℕ) (lam mu : ℚ)
    (weights : Option (List (List ℚ))) (bconstr volume_corr : Bool) :
    (smooth_mesh_call mesh n_iter lam mu weights bconstr volume_corr).1 = mesh ∧
    (smooth_mesh_call mesh n_iter lam mu weights bconstr volume_corr).2 =
      smooth_mesh mesh n_iter lam mu weights bconstr volume_corr :=
  ⟨rfl, rfl⟩

/-! ## Claim C9 -/

/-- C9: mesh generation from a 2D voxel array with no occupied voxel does not
return an empty mesh in surface mode: the surface branch produces 2-node edge
cells and edim 1, and the meshio_types table has no entry "1_2", so the
lookup raises KeyError (for every 2D surface input, empty or not). -/
theorem c9_empty_2d_surface_error :
    gen_mesh_from_voxels_2d [[false]] [1, 1] "q" "s" = .error "KeyError: 1_2" := by
  decide

/-! ## Claim C6 -/

/-- A directed cost edge i → j contributed by a mesh edge makes the cost
entry positive. -/
theorem cost_pos (g : ℕ → ℕ) (edges : List (ℕ × ℕ)) (i j : ℕ) (e : ℕ × ℕ)
    (hmem : e ∈ edges)
    (hcl : (e.1 = i ∧ e.2 = j ∧ g e.1 ≤ g e.2) ∨ (e.2 = i ∧ e.1 = j ∧ g e.2 ≤ g e.1)) :
    0 < cost g edges i j :=
  List.length_pos_of_mem (List.mem_filter.mpr ⟨hmem, decide_eq_true hcl⟩)

theorem node_group_cases (bconstr : Bool) (snd : List ℕ) (k : ℕ) :
    node_group bconstr snd k = 2 ∨ node_group bconstr snd k = 4 := by
  unfold node_group
  split
  · right; rfl
  · left; rfl

theorem node_group_le (bconstr : Bool) (snd : List ℕ) (k : ℕ) :
    2 ≤ node_group bconstr snd k := by
  rcases node_group_cases bconstr snd k with h | h <;> omega

/-- Every node of an edge-covered node set has at least one outgoing cost
edge: interior nodes point along every incident edge, and a boundary node
points along the unshared edge that put it into sndi, whose other endpoint is
boundary as well. -/
theorem exists_outgoing (n : ℕ) (mytype : String) (cells : List (List ℕ)) (bconstr : Bool)
    (hend : ∀ e ∈ uedges mytype cells, e.1 < n ∧ e.2 < n)
    (i : ℕ) (he : ∃ e ∈ uedges mytype cells, e.1 = i ∨ e.2 = i) :
    ∃ j, j < n ∧
      0 < cost (node_group bconstr (sndi mytype cells)) (uedges mytype cells) i j := by
  set g := node_group bconstr (sndi mytype cells) with hg
  rcases node_group_cases bconstr (sndi mytype cells) i with hgi | hgi
  · rcases he with ⟨e, he, hei | hei⟩
    · refine ⟨e.2, (hend e he).2, cost_pos g _ i e.2 e he (Or.inl ⟨hei, rfl, ?_⟩)⟩
      rw [hg, hei, hgi]
      exact node_group_le bconstr _ e.2
    · refine ⟨e.1, (hend e he).1, cost_pos g _ i e.1 e he (Or.inr ⟨hei, rfl, ?_⟩)⟩
      rw [hg, hei, hgi]
      exact node_group_le bconstr _ e.1
  · have hbs : bconstr = true ∧ i ∈ sndi mytype cells := by
      unfold node_group at hgi
      split at hgi
      · next h => exact h
      · omega
    rcases List.mem_flatMap.mp hbs.2 with ⟨e, he, hie⟩
    have heu : e ∈ uedges mytype cells := (List.mem_filter.mp he).1
    have h1 : e.1 ∈ sndi mytype cells :=
      List.mem_flatMap.mpr ⟨e, he, by simp⟩
    have h2 : e.2 ∈ sndi mytype cells :=
      List.mem_flatMap.mpr ⟨e, he, by simp⟩
    have hg1 : g e.1 = 4 := by rw [hg]; unfold node_group; rw [if_pos ⟨hbs.1, h1⟩]
    have hg2 : g e.2 = 4 := by rw [hg]; unfold node_group; rw [if_pos ⟨hbs.1, h2⟩]
    have hie2 : i = e.1 ∨ i = e.2 := by simpa using hie
    rcases hie2 with hie2 | hie2
    · exact ⟨e.2, (hend e heu).2,
        cost_pos g _ i e.2 e heu (Or.inl ⟨hie2.symm, rfl, by rw [hg1, hg2]⟩)⟩
    · exact ⟨e.1, (hend e heu).1,
        cost_pos g _ i e.1 e heu (Or.inr ⟨hie2.symm, rfl, by rw [hg1, hg2]⟩)⟩

/-- C6: the weight matrix built by smooth_mesh when none is supplied is
square over the n nodes and row-stochastic: each row is the node's outgoing
cost edges — a directed edge from the lower-hierarchy endpoint to the
higher-or-equal one, both directions on equal tags — divided by the row's
total cost, so each row sums to 1 (whenever every node lies on some mesh
edge, which holds for the meshes the generators emit). -/
theorem c6_weights (n : ℕ) (mytype : String) (cells : List (List ℕ)) (bconstr : Bool)
    (hend : ∀ e ∈ uedges mytype cells, e.1 < n ∧ e.2 < n)
    (hcov : ∀ i, i < n → ∃ e ∈ uedges mytype cells, e.1 = i ∨ e.2 = i) :
    (buildWeights n mytype cells bconstr).length = n ∧
    (∀ row ∈ buildWeights n mytype cells bconstr, row.length = n) ∧
    (∀ i, i < n → ((buildWeights n mytype cells bconstr).getD i []).sum = 1) := by
  refine ⟨by simp [buildWeights], ?_, ?_⟩
  · intro row hrow
    rcases List.mem_map.mp hrow with ⟨i, _, hi⟩
    rw [← hi, List.length_map, List.length_range]
  · intro i hi
    rw [buildWeights, getD_map_range _ _ _ _ hi]
    rcases exists_outgoing n mytype cells bconstr hend i (hcov i hi) with ⟨j0, hj0n, hj0c⟩
    set g := node_group bconstr (sndi mytype cells)
    set edges := uedges mytype cells
    have hnonneg : ∀ a ∈ (List.range n).map fun j => ((cost g edges i j : ℕ) : ℚ), 0 ≤ a := by
      intro a ha
      rcases List.mem_map.mp ha with ⟨j, _, hj⟩
      rw [← hj]
      exact Nat.cast_nonneg _
    have hmem : ((cost g edges i j0 : ℕ) : ℚ) ∈
        (List.range n).map fun j => ((cost g edges i j : ℕ) : ℚ) :=
      List.mem_map.mpr ⟨j0, List.mem_range.mpr hj0n, rfl⟩
    have hterm : (1 : ℚ) ≤ ((cost g edges i j0 : ℕ) : ℚ) := by
      exact_mod_cast hj0c
    have hR : costRowSum g edges n i ≠ 0 := by
      have h1 := List.single_le_sum hnonneg _ hmem
      have h0 : (0 : ℚ) < costRowSum g edges n i := by
        rw [costRowSum]
        linarith
      exact ne_of_gt h0
    rw [List.sum_map_mul_left]
    exact one_div_mul_cancel hR

/-- C6 (witness): the single-triangle mesh, where every node is boundary and
each weight row is 1/2 on the two neighbours. -/
theorem c6_weights_witness :
    (∀ e ∈ uedges "2_3" [[0, 1, 2]], e.1 < 3 ∧ e.2 < 3) ∧
    (∀ i, i < 3 → ∃ e ∈ uedges "2_3" [[0, 1, 2]], e.1 = i ∨ e.2 = i) ∧
    ((buildWeights 3 "2_3" [[0, 1, 2]] true).length = 3 ∧
      (∀ row ∈ buildWeights 3 "2_3" [[0, 1, 2]] true, row.length = 3) ∧
      (∀ i, i < 3 → ((buildWeights 3 "2_3" [[0, 1, 2]] true).getD i []).sum = 1)) :=
  ⟨by decide, by decide, c6_weights 3 "2_3" [[0, 1, 2]] true (by decide) (by decide)⟩

/-! ## Claim C10 -/

theorem mem_insertSorted (x y : ℕ) (l : List ℕ) :
    y ∈ insertSorted x l ↔ y = x ∨ y ∈ l := by
  induction l with
  | nil => simp [insertSorted]
  | cons a t ih =>
    rw [insertSorted]
    split
    · simp [List.mem_cons]
    · simp only [List.mem_cons, ih]
      tauto

theorem mem_sortAsc (x : ℕ) (l : List ℕ) : x ∈ sortAsc l ↔ x ∈ l := by
  induction l with
  | nil => simp [sortAsc]
  | cons a t ih =>
    show x ∈ insertSorted a (sortAsc t) ↔ _
    rw [mem_insertSorted, ih, List.mem_cons]

theorem getD_set (l : List ℕ) (q v p : ℕ) :
    (l.set q v).getD p 0 = if q = p ∧ q < l.length then v else l.getD p 0 := by
  by_cases h1 : q = p
  · subst h1
    by_cases h2 : q < l.length
    · simp [List.getD_eq_getElem?_getD, List.getElem?_set, h2]
    · have hnone : l[q]? = none := List.getElem?_eq_none (le_of_not_lt h2)
      simp [List.getD_eq_getElem?_getD, List.getElem?_set, h2, hnone]
  · simp [List.getD_eq_getElem?_getD, List.getElem?_set, h1]

theorem inner_set_length (key : List ℕ) (ii : ℕ) :
    ∀ acc : List ℕ, (key.foldl (fun a q => a.set q ii) acc).length = acc.length := by
  induction key with
  | nil => intro acc; rfl
  | cons x t ih =>
    intro acc
    rw [List.foldl_cons, ih, List.length_set]

/-- The fancy assignment `ntri[idxs] = ii` writes `ii` at every in-range
position of the key and leaves everything else alone. -/
theorem inner_set_getD (key : List ℕ) (ii : ℕ) :
    ∀ (acc : List ℕ) (p : ℕ),
      (key.foldl (fun a q => a.set q ii) acc).getD p 0 =
        if p ∈ key ∧ p < acc.length then ii else acc.getD p 0 := by
  induction key with
  | nil => intro acc p; simp
  | cons x t ih =>
    intro acc p
    rw [List.foldl_cons, ih, List.length_set, getD_set]
    by_cases hpl : p < acc.length <;> by_cases hpt : p ∈ t <;> by_cases hpx : x = p <;>
      simp_all [List.mem_cons, eq_comm]

theorem assignKeys_length (keys : List (List ℕ)) :
    ∀ (ii : ℕ) (acc : List ℕ), (assignKeys ii keys acc).length = acc.length := by
  induction keys with
  | nil => intro ii acc; rfl
  | cons key t ih =>
    intro ii acc
    rw [assignKeys, ih, inner_set_length]

/-- After the enumeration loop every position covered by some key holds a
group index below the number of groups, and every position holds either its
initial value or such a group index. -/
theorem assignKeys_getD_bound (keys : List (List ℕ)) :
    ∀ (ii : ℕ) (acc : List ℕ) (p : ℕ),
      ((∃ key ∈ keys, p ∈ key) → p < acc.length →
        (assignKeys ii keys acc).getD p 0 < ii + keys.length) ∧
      ((assignKeys ii keys acc).getD p 0 = acc.getD p 0 ∨
        (assignKeys ii keys acc).getD p 0 < ii + keys.length) := by
  induction keys with
  | nil =>
    intro ii acc p
    constructor
    · rintro ⟨key, hk, _⟩
      simp at hk
    · left; rfl
  | cons key t ih =>
    intro ii acc p
    have hlen := inner_set_length key ii acc
    have hval := inner_set_getD key ii acc p
    have base := ih (ii + 1) (key.foldl (fun a q => a.set q ii) acc) p
    have hstep : assignKeys ii (key :: t) acc =
        assignKeys (ii + 1) t (key.foldl (fun a q => a.set q ii) acc) := rfl
    have hlc : (key :: t).length = t.length + 1 := rfl
    constructor
    · rintro ⟨key0, hk0, hpk⟩ hpl
      rw [List.mem_cons] at hk0
      rw [hstep]
      rcases hk0 with rfl | hk0
      · rcases base.2 with hb | hb
        · rw [hb, hval, if_pos ⟨hpk, hpl⟩]
          omega
        · omega
      · have h := base.1 ⟨key0, hk0, hpk⟩ (by rw [hlen]; exact hpl)
        omega
    · rw [hstep]
      rcases base.2 with hb | hb
      · rw [hb, hval]
        by_cases hc : p ∈ key ∧ p < acc.length
        · rw [if_pos hc]
          right
          omega
        · rw [if_neg hc]
          left; rfl
      · right
        omega

theorem weld_ntri_length (numv : ℕ) (rows : List (List ℕ)) :
    (weld_ntri numv rows).length = numv := by
  rw [weld_ntri, assignKeys_length, List.length_replicate]

/-- When every vertex is among its own query hits, every position of ntri
receives a group index below the number of groups. -/
theorem weld_ntri_lt (numv : ℕ) (rows : List (List ℕ))
    (hself : ∀ i, i < numv → i ∈ rows.getD i []) (p : ℕ) (hp : p < numv) :
    (weld_ntri numv rows).getD p 0 < (weldKeys numv rows).length := by
  have hrowlen : p < rows.length := by
    by_contra h
    have hm := hself p hp
    rw [List.getD_eq_default _ _ (le_of_not_lt h)] at hm
    simp at hm
  have hmemrow : rows.getD p [] ∈ rows := by
    rw [List.getD_eq_getElem _ _ hrowlen]
    exact List.getElem_mem _
  have hkey : sortAsc ((rows.getD p []).filter fun x => x < numv) ∈ weldKeys numv rows := by
    rw [weldKeys]
    exact List.mem_dedup.mpr (List.mem_map.mpr ⟨rows.getD p [], hmemrow, rfl⟩)
  have hpk : p ∈ sortAsc ((rows.getD p []).filter fun x => x < numv) := by
    rw [mem_sortAsc]
    exact List.mem_filter.mpr ⟨hself p hp, decide_eq_true hp⟩
  have h := (assignKeys_getD_bound (weldKeys numv rows) 0 (List.replicate numv 1) p).1
    ⟨_, hkey, hpk⟩ (by rw [List.length_replicate]; exact hp)
  simpa [weld_ntri] using h

theorem getD_drop (l : List ℕ) (n i : ℕ) : (l.drop n).getD i 0 = l.getD (n + i) 0 := by
  rw [List.getD_eq_getElem?_getD, List.getD_eq_getElem?_getD, List.getElem?_drop]

theorem chunk_spec (nnd : ℕ) : ∀ (nel : ℕ) (l : List ℕ), l.length = nel * nnd →
    (chunk nel nnd l).length = nel ∧
    (∀ r ∈ chunk nel nnd l, r.length = nnd) ∧
    (∀ t k, t < nel → k < nnd →
      ((chunk nel nnd l).getD t []).getD k 0 = l.getD (t * nnd + k) 0) := by
  intro nel
  induction nel with
  | zero =>
    intro l hl
    refine ⟨rfl, by simp [chunk], ?_⟩
    intro t k ht
    omega
  | succ m ih =>
    intro l hl
    have hdl : (l.drop nnd).length = m * nnd := by
      rw [List.length_drop, hl, Nat.succ_mul]
      omega
    obtain ⟨ih1, ih2, ih3⟩ := ih (l.drop nnd) hdl
    have hnle : nnd ≤ l.length := by
      rw [hl, Nat.succ_mul]
      omega
    refine ⟨?_, ?_, ?_⟩
    · show (l.take nnd :: chunk m nnd (l.drop nnd)).length = m + 1
      rw [List.length_cons, ih1]
    · intro r hr
      rcases List.mem_cons.mp hr with rfl | hr
      · rw [List.length_take]
        omega
      · exact ih2 r hr
    · intro t k ht hk
      cases t with
      | zero =>
        show (l.take nnd).getD k 0 = l.getD (0 * nnd + k) 0
        rw [List.getD_eq_getElem?_getD, List.getElem?_take, if_pos hk]
        rw [show 0 * nnd + k = k from by ring]
        rw [List.getD_eq_getElem?_getD]
      | succ t0 =>
        show ((chunk m nnd (l.drop nnd)).getD t0 []).getD k 0 = l.getD ((t0 + 1) * nnd + k) 0
        rw [ih3 t0 k (by omega) hk, getD_drop]
        rw [show nnd + (t0 * nnd + k) = (t0 + 1) * nnd + k from by ring]

/-- C10: the vertex welder preserves the triangle count and order — the
output block has one nnd-tuple per input triangle, entry (t, k) being the
remapped flat vertex t*nnd + k — and, whenever every vertex occurs among its
own query hits (which holds whenever eps > 0, since a vertex is at distance
0 from itself), every remapped index is a valid index below the new node
count. -/
theorem c10_welding (nel nnd : ℕ) (rows : List (List ℕ)) (coors : List (List ℚ))
    (hself : ∀ i, i < nel * nnd → i ∈ rows.getD i []) :
    ((weld nel nnd rows coors).1.length = nel) ∧
    (∀ r ∈ (weld nel nnd rows coors).1, r.length = nnd) ∧
    (∀ t k, t < nel → k < nnd →
      ((weld nel nnd rows coors).1.getD t []).getD k 0 =
        (weld_ntri (nel * nnd) rows).getD (t * nnd + k) 0) ∧
    (∀ r ∈ (weld nel nnd rows coors).1, ∀ x ∈ r, x < (weld nel nnd rows coors).2.2) := by
  have hntl : (weld_ntri (nel * nnd) rows).length = nel * nnd := weld_ntri_length _ _
  obtain ⟨h1, h2, h3⟩ := chunk_spec nnd nel (weld_ntri (nel * nnd) rows) hntl
  refine ⟨h1, h2, h3, ?_⟩
  intro r hr x hx
  rcases List.mem_iff_getElem.mp hr with ⟨t, ht, hrt⟩
  rcases List.mem_iff_getElem.mp hx with ⟨k, hk, hxk⟩
  have hrlen := h2 r hr
  have ht' : t < nel := by rw [← h1]; exact ht
  have hk' : k < nnd := by rw [← hrlen]; exact hk
  have hval : r.getD k 0 = (weld_ntri (nel * nnd) rows).getD (t * nnd + k) 0 := by
    have h := h3 t k ht' hk'
    have hg : (chunk nel nnd (weld_ntri (nel * nnd) rows)).getD t [] = r := by
      rw [List.getD_eq_getElem _ _ (by rw [h1]; exact ht')]
      exact hrt
    rw [hg] at h
    exact h
  have hx2 : x = (weld_ntri (nel * nnd) rows).getD (t * nnd + k) 0 := by
    rw [← hval, List.getD_eq_getElem _ _ hk, hxk]
  have hb : t * nnd + k < nel * nnd := by
    calc t * nnd + k < (t + 1) * nnd := by rw [Nat.succ_mul]; omega
      _ ≤ nel * nnd := Nat.mul_le_mul_right _ (by omega)
  rw [hx2]
  exact weld_ntri_lt (nel * nnd) rows hself _ hb

/-- C10 (witness): one triangle whose three vertices each find only
themselves. -/
theorem c10_welding_witness :
    (∀ i, i < 1 * 3 → i ∈ ([[0], [1], [2]] : List (List ℕ)).getD i []) ∧
    (((weld 1 3 [[0], [1], [2]] [[0, 0, 0], [1, 0, 0], [0, 1, 0]]).1.length = 1) ∧
      (∀ r ∈ (weld 1 3 [[0], [1], [2]] [[0, 0, 0], [1, 0, 0], [0, 1, 0]]).1,
        r.length = 3) ∧
      (∀ t k, t < 1 → k < 3 →
        ((weld 1 3 [[0], [1], [2]] [[0, 0, 0], [1, 0, 0], [0, 1, 0]]).1.getD t []).getD
            k 0 =
          (weld_ntri (1 * 3) [[0], [1], [2]]).getD (t * 3 + k) 0) ∧
      (∀ r ∈ (weld 1 3 [[0], [1], [2]] [[0, 0, 0], [1, 0, 0], [0, 1, 0]]).1, ∀ x ∈ r,
        x < (weld 1 3 [[0], [1], [2]] [[0, 0, 0], [1, 0, 0], [0, 1, 0]]).2.2)) :=
  ⟨by decide, c10_welding 1 3 [[0], [1], [2]] [[0, 0, 0], [1, 0, 0], [0, 1, 0]] (by decide)⟩

end Seg2Fem
